import Mathlib

/-!
# cockroach-init: SRV discovery

A shallow embedding of `internal/discovery/discovery.go` (package `discovery`):
`FindNodes`, `resolveSRVRecords`, and the `byPriorityWeight` ordering copied
from Go's net library (`Less`, `shuffleByWeight`, `sort`).

Modelling conventions.

* A Go `string` is a sequence of bytes; every string operation this package
  uses (`HasPrefix`, `Split` on `"."`, `TrimPrefix`, concatenation, `Join`)
  acts position by position, so strings are lists of characters (`Str`).
* `uint16` fields of `net.SRV` are natural numbers; `int` variables are
  integers.  The only arithmetic on them is the running weight sum, which is
  bounded by `65535 * len(addrs)` and cannot wrap a 64-bit `int`.
* In-place mutation of a slice is explicit state passing: a function that
  mutates `addrs` returns the new contents.
* The outside world is passed in: `rand.Intn` reads from a list of raw random
  draws, `sort.Sort` is a parameter `sortFn`, DNS and TCP are the fields of
  `Net`.  Calls to DNS and TCP are recorded in a trace of `Event`s.
-/

namespace Discovery

/-- Go `string`, as the list of its characters. -/
abbrev Str := List Char

/-- The `net.SRV` record: `Target string; Port, Priority, Weight uint16`. -/
structure SRV where
  Target : Str
  Port : Nat
  Priority : Nat
  Weight : Nat
deriving DecidableEq, Repr, Inhabited

/-- The type `byPriorityWeight []*net.SRV`. -/
abbrev byPriorityWeight := List SRV

/-- The comparison inside `byPriorityWeight.Less`, on two records. -/
def lessSRV (a b : SRV) : Bool :=
  decide (a.Priority < b.Priority) ||
    (decide (a.Priority = b.Priority) && decide (a.Weight < b.Weight))

/-- The method `byPriorityWeight.Len`. -/
def byPriorityWeight.Len (s : byPriorityWeight) : Nat := s.length

/-- The method `byPriorityWeight.Less(i, j)`. -/
def byPriorityWeight.Less (s : byPriorityWeight) (i j : Nat) : Bool :=
  lessSRV (s.getD i default) (s.getD j default)

/-- The method `byPriorityWeight.Swap(i, j)`, also the inline swap
`addrs[0], addrs[i] = addrs[i], addrs[0]` of `shuffleByWeight`: both right-hand
sides are read before either element is written. -/
def byPriorityWeight.Swap (s : byPriorityWeight) (i j : Nat) : byPriorityWeight :=
  (s.set i (s.getD j default)).set j (s.getD i default)

/-- The call `rand.Intn(n)` for `n > 0`: some value of `[0, n)`, here the raw
draw reduced modulo `n`; every value of `[0, n)` is returned for some draw. -/
def Intn (n : Int) (raw : Nat) : Int := (raw : Int) % n

/-- The first loop of `shuffleByWeight`:
`sum := 0; for _, addr := range addrs { sum += int(addr.Weight) }`. -/
def sumWeights (addrs : List SRV) : Int :=
  addrs.foldl (fun sum addr => sum + (addr.Weight : Int)) 0

/-- The inner loop of `shuffleByWeight`, up to its `break`: starting with the
running total `s` at index `i`, the first index whose running total exceeds
`n`; `none` when the range is exhausted without a `break`. -/
def pickLoop (n : Int) : List SRV → Int → Nat → Option Nat
  | [], _, _ => none
  | a :: rest, s, i =>
    if s + (a.Weight : Int) > n then some i
    else pickLoop n rest (s + (a.Weight : Int)) (i + 1)

/-- The inner loop of `shuffleByWeight` as a whole: `s := 0`, find the index,
swap it to the front when `i > 0`. -/
def selectFront (addrs : List SRV) (n : Int) : List SRV :=
  match pickLoop n addrs 0 0 with
  | some i => if i > 0 then byPriorityWeight.Swap addrs 0 i else addrs
  | none => addrs

/-- The variables of the outer loop of `shuffleByWeight`.  `done` is the part
of the caller's slice that `addrs = addrs[1:]` has already stepped over. -/
structure ShuffleState where
  done : List SRV
  addrs : List SRV
  sum : Int
  draws : List Nat
deriving DecidableEq, Repr

/-- The loop condition `sum > 0 && len(addrs) > 1`. -/
def shuffleCond (st : ShuffleState) : Bool :=
  decide (st.sum > 0) && decide (st.addrs.length > 1)

/-- One pass through the body of the outer loop of `shuffleByWeight`. -/
def shuffleBody (st : ShuffleState) : ShuffleState :=
  let n := Intn st.sum (st.draws.headD 0)
  let addrs := selectFront st.addrs n
  { done := st.done ++ addrs.take 1
    addrs := addrs.drop 1
    sum := st.sum - ((addrs.getD 0 default).Weight : Int)
    draws := st.draws.tail }

/-- At most `k` passes of the outer loop of `shuffleByWeight`; it stops as soon
as the loop condition fails.  `shuffleLoop k st` is the state at the head of
pass `k` (or the final state when the loop ended earlier). -/
def shuffleLoop : Nat → ShuffleState → ShuffleState
  | 0, st => st
  | k + 1, st => if shuffleCond st then shuffleLoop k (shuffleBody st) else st

/-- The state on entry to the outer loop of `shuffleByWeight`. -/
def shuffleInit (addrs : List SRV) (draws : List Nat) : ShuffleState :=
  { done := [], addrs := addrs, sum := sumWeights addrs, draws := draws }

/-- The method `byPriorityWeight.shuffleByWeight`: the new contents of the
slice and the unread draws.  Every pass shortens `addrs` by one, so
`len(addrs)` passes are enough for the loop to end (`shuffleByWeight_exits`). -/
def byPriorityWeight.shuffleByWeight (addrs : byPriorityWeight) (draws : List Nat) :
    byPriorityWeight × List Nat :=
  let st := shuffleLoop addrs.length (shuffleInit addrs draws)
  (st.done ++ st.addrs, st.draws)

/-- The body of the `for j` loop of `byPriorityWeight.sort`, on the variables
`(addrs, i, draws)`. -/
def sortBody (st : List SRV × Nat × List Nat) (j : Nat) : List SRV × Nat × List Nat :=
  if (st.1.getD st.2.1 default).Priority ≠ (st.1.getD j default).Priority then
    let r := byPriorityWeight.shuffleByWeight ((st.1.drop st.2.1).take (j - st.2.1)) st.2.2
    (st.1.take st.2.1 ++ r.1 ++ st.1.drop j, j, r.2)
  else st

/-- The last statement of `byPriorityWeight.sort`, `addrs[i:].shuffleByWeight()`,
on the variables `(addrs, i, draws)` the loop has left. -/
def sortLast (st : List SRV × Nat × List Nat) : List SRV × List Nat :=
  let r := byPriorityWeight.shuffleByWeight (st.1.drop st.2.1) st.2.2
  (st.1.take st.2.1 ++ r.1, r.2)

/-- The method `byPriorityWeight.sort`, with `sort.Sort` passed in as `sortFn`:
`for j := 1; j < len(addrs); j++` runs over `j = 1, ..., len(addrs) - 1`, then
the last run `addrs[i:]` is shuffled.  The result is the new contents of the
slice and the unread draws. -/
def byPriorityWeight.sort (sortFn : List SRV → List SRV) (addrs : byPriorityWeight)
    (draws : List Nat) : byPriorityWeight × List Nat :=
  let sorted := sortFn addrs
  sortLast ((List.range' 1 (sorted.length - 1)).foldl sortBody (sorted, 0, draws))

/-- What `sort.Sort` guarantees for a strict weak order `Less`: the result is
a rearrangement of the input in which no later element is `Less` than an
earlier one.  Nothing is promised about the order of equal elements. -/
def SortContract (sortFn : List SRV → List SRV) : Prop :=
  ∀ l, (sortFn l).Perm l ∧ (sortFn l).Pairwise (fun a b => lessSRV b a = false)

/-- Insertion sort by `Less`, the algorithm `sort.Sort` runs on short slices;
it is one function that meets `SortContract`. -/
def insertionSort (l : List SRV) : List SRV :=
  List.insertionSort (fun a b => lessSRV b a = false) l

/-! ## Strings, DNS and TCP -/

/-- Go `strings.HasPrefix(s, prefix)`. -/
def HasPrefix (s pre : Str) : Bool := pre.isPrefixOf s

/-- Go `strings.TrimPrefix(s, prefix)`: `s` without the leading `prefix`, or
`s` itself when it does not start with `prefix`. -/
def TrimPrefix (s pre : Str) : Str :=
  if HasPrefix s pre then s.drop pre.length else s

/-- Go `strings.Split(s, sep)` for a one-character separator: the segments
between the separators, so one segment more than there are separators. -/
def Split : Str → Char → List Str
  | [], _ => [[]]
  | c :: cs, sep =>
    if c = sep then [] :: Split cs sep
    else
      match Split cs sep with
      | [] => [[c]]
      | seg :: segs => (c :: seg) :: segs

/-- Go `strings.Join(elems, sep)`. -/
def Join (elems : List Str) (sep : Str) : Str := sep.intercalate elems

/-- A connection returned by `net.Dial`. -/
structure Conn where
  address : Str
deriving DecidableEq, Repr

/-- The network as `FindNodes` sees it: `net.LookupSRV(service, proto, name)`
gives the records or an error, `net.Dial(network, address)` gives a connection
or an error. -/
structure Net where
  LookupSRV : Str → Str → Str → Except Str (List SRV)
  Dial : Str → Str → Except Str Conn

/-- What `FindNodes` does to the outside world, in order. -/
inductive Event where
  | lookupSRV (service proto name : Str)
  | dial (network address : Str)
  | logPrintln (msg err : Str)
  | close (address : Str)
deriving DecidableEq, Repr

/-- How a call of `FindNodes` ends: it returns the join string, or
`log.Fatalln(err)` ends the process, or a nil dereference panics. -/
inductive Outcome where
  | returned (join : Str)
  | fatal (err : Str)
  | panicked
deriving DecidableEq, Repr

/-- The two results `conn, err := net.Dial(...)`: on failure `conn` is the nil
interface value and `err` is set, on success `err` is nil. -/
def dialResults (r : Except Str Conn) : Option Conn × Option Str :=
  match r with
  | .ok c => (some c, none)
  | .error e => (none, some e)

/-- The call `conn.Close()`: a method call on the nil interface value is a
run-time panic (`none`); on a connection it closes it. -/
def Close (conn : Option Conn) : Option (List Event) :=
  match conn with
  | none => none
  | some c => some [Event.close c.address]

/-- The parsing part of `resolveSRVRecords` (up to the call of
`net.LookupSRV`): the arguments `(port, proto, name)` of the lookup, or the
error returned. -/
def parseSRVName (raw : Str) : Except Str (Str × Str × Str) :=
  if !HasPrefix raw "_".toList then
    .error ("SRV record should start with _: ".toList ++ raw)
  else
    let sp := Split raw '.'
    if sp.length < 3 then
      .error ("not a SRV record: ".toList ++ raw)
    else
      let port := TrimPrefix (sp.getD 0 []) "_".toList
      let proto := TrimPrefix (sp.getD 1 []) "_".toList
      let name := TrimPrefix raw ("_".toList ++ port ++ "._".toList ++ proto ++ ".".toList)
      .ok (port, proto, name)

/-- The function `resolveSRVRecords`: the lookups it issued and its result. -/
def resolveSRVRecords (net : Net) (raw : Str) : List Event × Except Str (List SRV) :=
  match parseSRVName raw with
  | .error e => ([], .error e)
  | .ok (port, proto, name) => ([Event.lookupSRV port proto name], net.LookupSRV port proto name)

/-- The first loop of `FindNodes`, `for _, s := range srv`, on the variables
`srvs` and the trace so far: `.error err` is `log.Fatalln(err)`. -/
def resolveLoop (net : Net) : List Str → List SRV → List Event → List Event × Except Str (List SRV)
  | [], srvs, tr => (tr, .ok srvs)
  | s :: rest, srvs, tr =>
    match resolveSRVRecords net s with
    | (evs, .error err) => (tr ++ evs, .error err)
    | (evs, .ok endpoints) => resolveLoop net rest (srvs ++ endpoints) (tr ++ evs)

/-- The endpoint `fmt.Sprintf("%s:%d", s.Target, s.Port)`. -/
def endpointOf (s : SRV) : Str := s.Target ++ ":".toList ++ Nat.toDigits 10 s.Port

/-- The second loop of `FindNodes`, `for _, s := range srvs`, followed by the
`return strings.Join(reachable, ",")`, on the variable `reachable` and the
trace so far. -/
def probeLoop (net : Net) (max : Int) : List SRV → List Str → List Event → List Event × Outcome
  | [], reachable, tr => (tr, .returned (Join reachable ",".toList))
  | s :: rest, reachable, tr =>
    let endpoint := endpointOf s
    let r := dialResults (net.Dial "tcp".toList endpoint)
    let tr := tr ++ [Event.dial "tcp".toList endpoint]
    let tr := match r.2 with
      | some err => tr ++ [Event.logPrintln "could not connect to server: ".toList err]
      | none => tr
    let reachable := match r.2 with
      | some _ => reachable
      | none => reachable ++ [endpoint]
    match Close r.1 with
    | none => (tr, .panicked)
    | some evs =>
      if (reachable.length : Int) = max then
        (tr ++ evs, .returned (Join reachable ",".toList))
      else probeLoop net max rest reachable (tr ++ evs)

/-- The function `FindNodes(srv, max)`: the trace of its calls to the network
and how it ends. -/
def FindNodes (net : Net) (sortFn : List SRV → List SRV) (draws : List Nat)
    (srv : List Str) (max : Int) : List Event × Outcome :=
  match resolveLoop net srv [] [] with
  | (tr, .error err) => (tr, .fatal err)
  | (tr, .ok srvs) => probeLoop net max (byPriorityWeight.sort sortFn srvs draws).1 [] tr

/-! ## Definitions used in the statements and proofs -/

/-- The total weight of a list of records. -/
def totalWeight (l : List SRV) : Int := (l.map (fun a => (a.Weight : Int))).sum

/-- What holds at the head of every pass of the outer loop: `sum` is the total
weight of the records still to be placed, and every record already placed has
positive weight. -/
def ShuffleInv (st : ShuffleState) : Prop :=
  st.sum = totalWeight st.addrs ∧ ∀ a ∈ st.done, 0 < a.Weight

/-- The runs as the loop of `sort` meets them: `run` is the current run
`addrs[i:j]`, the second argument is `addrs[j:]`.  A record of another priority
ends the run, which is shuffled; otherwise the run grows by one record. -/
def shuffleRuns : List SRV → List SRV → List Nat → List SRV × List Nat
  | run, [], d => byPriorityWeight.shuffleByWeight run d
  | run, y :: rest, d =>
    if (run.getD 0 default).Priority ≠ y.Priority then
      ((byPriorityWeight.shuffleByWeight run d).1 ++
          (shuffleRuns [y] rest (byPriorityWeight.shuffleByWeight run d).2).1,
        (shuffleRuns [y] rest (byPriorityWeight.shuffleByWeight run d).2).2)
    else shuffleRuns (run ++ [y]) rest d

/-- The events `resolveSRVRecords` leaves are lookups only. -/
def Event.isLookup : Event → Bool
  | .lookupSRV _ _ _ => true
  | _ => false

/-- The variables of the outer loop of `shuffleByWeight(addrs)` at the head of
pass `k` (passes are counted from 0), when `rand.Intn` reads from `draws`; the
final state when the loop has ended before pass `k`. -/
def shuffleAt (addrs : List SRV) (draws : List Nat) (k : Nat) : ShuffleState :=
  shuffleLoop k (shuffleInit addrs draws)

/-! ## Concrete inputs -/

/-- The record `(h1, 26257, pri=0, w=10)`. -/
def exH1 : SRV := ⟨"h1".toList, 26257, 0, 10⟩

/-- The record `(h2, 26257, pri=0, w=5)`. -/
def exH2 : SRV := ⟨"h2".toList, 26257, 0, 5⟩

/-- The record `(h3, 26257, pri=1, w=0)`. -/
def exH3 : SRV := ⟨"h3".toList, 26257, 1, 0⟩

/-- A record of priority 0 and weight 0. -/
def exZ1 : SRV := ⟨"z1".toList, 26257, 0, 0⟩

/-- A second record of priority 0 and weight 0. -/
def exZ2 : SRV := ⟨"z2".toList, 26257, 0, 0⟩

/-- The query string `_grpc._tcp.svc.cluster.local`. -/
def exQuery : Str := "_grpc._tcp.svc.cluster.local".toList

/-- A query string whose lookup fails in `exNet`. -/
def exQueryDown : Str := "_grpc._tcp.down.local".toList

/-- A network in which the name `down.local` does not resolve, every other
name resolves to `h1`, `h2`, `h3`, and every host accepts connections. -/
def exNet : Net :=
  { LookupSRV := fun _ _ name =>
      if name = "down.local".toList then .error "no such host".toList
      else .ok [exH1, exH2, exH3]
    Dial := fun _ address => .ok ⟨address⟩ }

/-- A network in which every name resolves to `h1` alone and `h1` accepts
connections. -/
def exNetOne : Net :=
  { LookupSRV := fun _ _ _ => .ok [exH1]
    Dial := fun _ address => .ok ⟨address⟩ }

/-- A network in which every name resolves to `h1` alone and `h1` refuses
connections. -/
def exNetOneDown : Net :=
  { LookupSRV := fun _ _ _ => .ok [exH1]
    Dial := fun _ _ => .error "connection refused".toList }

/-- A network in which every name resolves to `h3` (priority 0 here, so it is
probed first) and `h1`, and only `h1` accepts connections. -/
def exNetFirstDown : Net :=
  { LookupSRV := fun _ _ _ => .ok [⟨"h3".toList, 26257, 0, 0⟩, ⟨"h1".toList, 26257, 1, 10⟩]
    Dial := fun _ address =>
      if address = "h3:26257".toList then .error "connection refused".toList
      else .ok ⟨address⟩ }

/-! ## Weights and the selection loop -/

theorem foldl_weight_acc (l : List SRV) (s : Int) :
    l.foldl (fun sum addr => sum + (addr.Weight : Int)) s = s + totalWeight l := by
  induction l generalizing s with
  | nil => simp [totalWeight]
  | cons a t ih =>
    simp only [List.foldl_cons, ih, totalWeight, List.map_cons, List.sum_cons]
    omega

theorem sumWeights_eq (l : List SRV) : sumWeights l = totalWeight l := by
  simp [sumWeights, foldl_weight_acc]

theorem totalWeight_nonneg (l : List SRV) : 0 ≤ totalWeight l := by
  induction l with
  | nil => simp [totalWeight]
  | cons a t ih =>
    simp only [totalWeight, List.map_cons, List.sum_cons] at *
    omega

theorem totalWeight_cons (a : SRV) (l : List SRV) :
    totalWeight (a :: l) = (a.Weight : Int) + totalWeight l := by
  simp [totalWeight]

theorem totalWeight_perm {l l' : List SRV} (h : l.Perm l') : totalWeight l = totalWeight l' := by
  unfold totalWeight
  exact (h.map _).sum_eq

theorem totalWeight_eq_zero {l : List SRV} (h : totalWeight l = 0) :
    ∀ a ∈ l, a.Weight = 0 := by
  induction l with
  | nil => simp
  | cons a t ih =>
    rw [totalWeight_cons] at h
    have := totalWeight_nonneg t
    intro b hb
    rcases List.mem_cons.mp hb with rfl | hb
    · omega
    · exact ih (by omega) b hb

/-- The index found by the selection loop lies in the list, and everything up
to it weighs at most `n` while including it weighs more. -/
theorem pickLoop_some {n : Int} {l : List SRV} {s : Int} {b i : Nat}
    (h : pickLoop n l s b = some i) :
    ∃ k, i = b + k ∧ k < l.length ∧
      (s ≤ n → s + totalWeight (l.take k) ≤ n) ∧ n < s + totalWeight (l.take (k + 1)) := by
  induction l generalizing s b with
  | nil => simp [pickLoop] at h
  | cons a t ih =>
    unfold pickLoop at h
    split at h
    · rename_i hgt
      refine ⟨0, ?_, by simp, ?_, ?_⟩
      · simpa using h.symm
      · intro hs; simpa [totalWeight] using hs
      · simp [totalWeight_cons, totalWeight]; omega
    · rename_i hle
      obtain ⟨k, hk, hlen, h1, h2⟩ := ih h
      refine ⟨k + 1, by omega, by simpa using hlen, ?_, ?_⟩
      · intro _
        have := h1 (by omega)
        simp only [List.take_succ_cons, totalWeight_cons]; omega
      · simp only [List.take_succ_cons, totalWeight_cons]; omega

/-- The selection loop finds index `k` exactly for the draws `n` that lie in
the weight interval of position `k`. -/
theorem pickLoop_iff {n : Int} {l : List SRV} {s : Int} {b k : Nat} (hs : s ≤ n)
    (hk : k < l.length) :
    pickLoop n l s b = some (b + k) ↔
      s + totalWeight (l.take k) ≤ n ∧ n < s + totalWeight (l.take (k + 1)) := by
  induction l generalizing s b k with
  | nil => simp at hk
  | cons a t ih =>
    unfold pickLoop
    have hnn := totalWeight_nonneg (t.take (k - 1))
    split
    · rename_i hgt
      cases k with
      | zero => simp [totalWeight_cons, totalWeight]; omega
      | succ k =>
        simp only [List.take_succ_cons, totalWeight_cons]
        have := totalWeight_nonneg (t.take k)
        constructor
        · intro h; simp at h
        · intro h; omega
    · rename_i hle
      cases k with
      | zero =>
        simp only [List.take_zero, List.take_succ_cons, totalWeight_cons]
        constructor
        · intro h
          obtain ⟨k', hk', _⟩ := pickLoop_some h
          omega
        · intro h; simp [totalWeight] at h; omega
      | succ k =>
        have hk' : k < t.length := by simpa using hk
        have := ih (s := s + a.Weight) (b := b + 1) (k := k) (by omega) hk'
        rw [show b + (k + 1) = b + 1 + k by omega, this]
        simp only [List.take_succ_cons, totalWeight_cons]
        constructor <;> intro h <;> omega

/-- A draw below the total weight is always found by the selection loop. -/
theorem pickLoop_isSome {n : Int} {l : List SRV} {s : Int} {b : Nat} (hs : s ≤ n)
    (h : n < s + totalWeight l) : ∃ i, pickLoop n l s b = some i := by
  induction l generalizing s b with
  | nil => simp [totalWeight] at h; omega
  | cons a t ih =>
    unfold pickLoop
    split
    · exact ⟨_, rfl⟩
    · rw [totalWeight_cons] at h
      exact ih (by omega) (by omega)

/-! ## The swap and one pass of the shuffle -/

theorem swap_front_eq (a : SRV) (t : List SRV) (k : Nat) :
    byPriorityWeight.Swap (a :: t) 0 (k + 1) = t.getD k default :: t.set k a := by
  simp [byPriorityWeight.Swap]

theorem getD_cons_set_perm (a d : SRV) (t : List SRV) (k : Nat) (hk : k < t.length) :
    (t.getD k d :: t.set k a).Perm (a :: t) := by
  induction t generalizing k with
  | nil => simp at hk
  | cons b t ih =>
    cases k with
    | zero => simpa using List.Perm.swap a b t
    | succ k =>
      have hk' : k < t.length := by simpa using hk
      have h1 := ih k hk'
      simp only [List.getD_cons_succ, List.set_cons_succ]
      exact ((List.Perm.swap b (t.getD k d) (t.set k a)).trans (h1.cons b)).trans
        (List.Perm.swap a b t)

/-- The selection loop only rearranges the list. -/
theorem selectFront_perm (addrs : List SRV) (n : Int) : (selectFront addrs n).Perm addrs := by
  unfold selectFront
  split
  · rename_i i hi
    split
    · rename_i hpos
      obtain ⟨k, hk, hlen, -, -⟩ := pickLoop_some hi
      cases addrs with
      | nil => simp at hlen
      | cons a t =>
        obtain ⟨j, rfl⟩ : ∃ j, i = j + 1 := ⟨i - 1, by omega⟩
        rw [swap_front_eq]
        exact getD_cons_set_perm a default t j (by simp at hlen; omega)
    · exact List.Perm.refl _
  · exact List.Perm.refl _

/-- The record the selection loop leaves at the front is the one it found. -/
theorem selectFront_head {addrs : List SRV} {n : Int} {i : Nat}
    (h : pickLoop n addrs 0 0 = some i) :
    (selectFront addrs n).getD 0 default = addrs.getD i default := by
  unfold selectFront
  rw [h]
  obtain ⟨k, hk, hlen, -, -⟩ := pickLoop_some h
  cases addrs with
  | nil => simp at hlen
  | cons a t =>
    cases i with
    | zero => simp
    | succ j => simp [swap_front_eq]

theorem totalWeight_take_succ (l : List SRV) (k : Nat) (hk : k < l.length) :
    totalWeight (l.take (k + 1)) = totalWeight (l.take k) + ((l.getD k default).Weight : Int) := by
  induction l generalizing k with
  | nil => simp at hk
  | cons a t ih =>
    cases k with
    | zero => simp [totalWeight]
    | succ k =>
      have hk' : k < t.length := by simpa using hk
      simp only [List.take_succ_cons, totalWeight_cons, List.getD_cons_succ, ih k hk']
      omega

/-- A draw in `[0, total weight)` puts a record of positive weight at the front. -/
theorem selectFront_head_pos {addrs : List SRV} {n : Int} (h0 : 0 ≤ n)
    (hn : n < totalWeight addrs) :
    0 < ((selectFront addrs n).getD 0 default).Weight := by
  obtain ⟨i, hi⟩ := pickLoop_isSome (s := 0) (b := 0) h0 (by simpa using hn)
  rw [selectFront_head hi]
  obtain ⟨k, hk, hlen, h1, h2⟩ := pickLoop_some hi
  have h1 := h1 h0
  obtain rfl : i = k := by omega
  rw [totalWeight_take_succ _ _ hlen] at h2
  omega

theorem Intn_range {sum : Int} (h : 0 < sum) (raw : Nat) :
    0 ≤ Intn sum raw ∧ Intn sum raw < sum := by
  unfold Intn
  exact ⟨Int.emod_nonneg _ (by omega), Int.emod_lt_of_pos _ h⟩

/-! ## The outer loop of `shuffleByWeight` -/

theorem shuffleCond_iff (st : ShuffleState) :
    shuffleCond st = true ↔ 0 < st.sum ∧ 1 < st.addrs.length := by
  simp [shuffleCond]

theorem list_take_one_drop_one (l : List SRV) (h : 0 < l.length) :
    l = l.getD 0 default :: l.drop 1 := by
  cases l with
  | nil => simp at h
  | cons a t => simp

theorem shuffleBody_inv {st : ShuffleState} (hc : shuffleCond st = true) (hi : ShuffleInv st) :
    ShuffleInv (shuffleBody st) := by
  obtain ⟨hsum, hdone⟩ := hi
  obtain ⟨hpos, hlen⟩ := (shuffleCond_iff st).mp hc
  have hr := Intn_range hpos (st.draws.headD 0)
  have hperm := selectFront_perm st.addrs (Intn st.sum (st.draws.headD 0))
  have hl : 0 < (selectFront st.addrs (Intn st.sum (st.draws.headD 0))).length := by
    rw [hperm.length_eq]; omega
  have hsplit := list_take_one_drop_one _ hl
  have hw := totalWeight_perm hperm
  rw [hsplit, totalWeight_cons] at hw
  refine ⟨?_, ?_⟩
  · simp only [shuffleBody]
    omega
  · intro a ha
    simp only [shuffleBody, List.mem_append] at ha
    rcases ha with ha | ha
    · exact hdone a ha
    · rw [hsplit] at ha
      simp only [List.take_succ_cons, List.take_zero, List.mem_singleton] at ha
      rw [ha]
      exact selectFront_head_pos hr.1 (by rw [← hsum]; exact hr.2)

theorem shuffleBody_perm {st : ShuffleState} :
    ((shuffleBody st).done ++ (shuffleBody st).addrs).Perm (st.done ++ st.addrs) := by
  simp only [shuffleBody, List.append_assoc, List.take_append_drop]
  exact (selectFront_perm _ _).append_left _

theorem shuffleBody_length {st : ShuffleState} :
    (shuffleBody st).addrs.length = st.addrs.length - 1 := by
  simp [shuffleBody, (selectFront_perm _ _).length_eq]

theorem shuffleLoop_inv (k : Nat) {st : ShuffleState} (hi : ShuffleInv st) :
    ShuffleInv (shuffleLoop k st) := by
  induction k generalizing st with
  | zero => exact hi
  | succ k ih =>
    unfold shuffleLoop
    split
    · rename_i hc; exact ih (shuffleBody_inv hc hi)
    · exact hi

theorem shuffleLoop_perm (k : Nat) (st : ShuffleState) :
    ((shuffleLoop k st).done ++ (shuffleLoop k st).addrs).Perm (st.done ++ st.addrs) := by
  induction k generalizing st with
  | zero => exact List.Perm.refl _
  | succ k ih =>
    unfold shuffleLoop
    split
    · exact (ih _).trans shuffleBody_perm
    · exact List.Perm.refl _

/-- With at least `len(addrs)` passes allowed the loop has ended: its condition
is false in the state reached. -/
theorem shuffleLoop_exits (k : Nat) (st : ShuffleState) (h : st.addrs.length ≤ k) :
    shuffleCond (shuffleLoop k st) = false := by
  induction k generalizing st with
  | zero =>
    simp only [shuffleLoop, shuffleCond]
    simp; intro _; omega
  | succ k ih =>
    unfold shuffleLoop
    split
    · exact ih _ (by rw [shuffleBody_length]; omega)
    · rename_i hc; simpa using hc

/-- Allowing more passes than `len(addrs)` changes nothing. -/
theorem shuffleLoop_stable (k m : Nat) (st : ShuffleState) (h : st.addrs.length ≤ k) :
    shuffleLoop (k + m) st = shuffleLoop k st := by
  induction k generalizing st with
  | zero =>
    have hc : shuffleCond st = false := by
      simp only [shuffleCond]; simp; intro _; omega
    cases m with
    | zero => rfl
    | succ m => simp [shuffleLoop, hc]
  | succ k ih =>
    rw [show k + 1 + m = (k + m) + 1 by omega]
    unfold shuffleLoop
    split
    · exact ih _ (by rw [shuffleBody_length]; omega)
    · rfl

theorem shuffleInit_inv (addrs : List SRV) (draws : List Nat) :
    ShuffleInv (shuffleInit addrs draws) := by
  simp [ShuffleInv, shuffleInit, sumWeights_eq]

theorem shuffleByWeight_exits (addrs : List SRV) (draws : List Nat) :
    shuffleCond (shuffleLoop addrs.length (shuffleInit addrs draws)) = false :=
  shuffleLoop_exits _ _ (by simp [shuffleInit])

/-- The shuffle only rearranges its slice. -/
theorem shuffleByWeight_perm (addrs : List SRV) (draws : List Nat) :
    (byPriorityWeight.shuffleByWeight addrs draws).1.Perm addrs := by
  simpa [byPriorityWeight.shuffleByWeight, shuffleInit] using
    shuffleLoop_perm addrs.length (shuffleInit addrs draws)

theorem shuffleByWeight_length (addrs : List SRV) (draws : List Nat) :
    (byPriorityWeight.shuffleByWeight addrs draws).1.length = addrs.length :=
  (shuffleByWeight_perm addrs draws).length_eq

/-- After the shuffle no record of weight 0 stands before one of positive weight. -/
theorem shuffleByWeight_zero_last (addrs : List SRV) (draws : List Nat) :
    (byPriorityWeight.shuffleByWeight addrs draws).1.Pairwise
      (fun a b => a.Weight = 0 → b.Weight = 0) := by
  have hinv := shuffleLoop_inv addrs.length (shuffleInit_inv addrs draws)
  have hex := shuffleByWeight_exits addrs draws
  simp only [byPriorityWeight.shuffleByWeight]
  generalize shuffleLoop addrs.length (shuffleInit addrs draws) = st at hinv hex
  obtain ⟨hsum, hdone⟩ := hinv
  rw [List.pairwise_append]
  refine ⟨?_, ?_, ?_⟩
  · exact List.pairwise_of_forall_mem_list
      (fun a ha _ _ h0 => absurd h0 (by have := hdone a ha; omega))
  · have hc : ¬ (0 < st.sum ∧ 1 < st.addrs.length) := by
      rw [← shuffleCond_iff]; simp [hex]
    by_cases hs : 0 < st.sum
    · have hl : st.addrs.length ≤ 1 := by
        by_contra hh; exact hc ⟨hs, by omega⟩
      match hst : st.addrs, hl with
      | [], _ => simp
      | [x], _ => simp
    · have h0 : totalWeight st.addrs = 0 := by
        have := totalWeight_nonneg st.addrs; omega
      have hz := totalWeight_eq_zero h0
      exact List.pairwise_of_forall_mem_list (fun _ _ b hb _ => hz b hb)
  · intro a ha b _ h0
    have := hdone a ha
    omega

/-! ## The loop of `sort` walks the runs of equal priority -/

theorem sortBody_at (P run rest : List SRV) (y : SRV) (d : List Nat) (hrun : run ≠ []) :
    sortBody (P ++ run ++ y :: rest, P.length, d) (P.length + run.length) =
      if (run.getD 0 default).Priority ≠ y.Priority then
        (P ++ (byPriorityWeight.shuffleByWeight run d).1 ++ y :: rest, P.length + run.length,
          (byPriorityWeight.shuffleByWeight run d).2)
      else (P ++ run ++ y :: rest, P.length, d) := by
  have hlen : 0 < run.length := List.length_pos.mpr hrun
  have h1 : (P ++ run ++ y :: rest).getD P.length default = run.getD 0 default := by
    rw [List.append_assoc, List.getD_append_right _ _ _ _ (le_refl _), Nat.sub_self,
      List.getD_append _ _ _ _ hlen]
  have h2 : (P ++ run ++ y :: rest).getD (P.length + run.length) default = y := by
    rw [List.getD_append_right _ _ _ _ (by simp)]
    simp
  have h3 : ((P ++ run ++ y :: rest).drop P.length).take (P.length + run.length - P.length)
      = run := by
    rw [List.append_assoc, List.drop_left, Nat.add_sub_cancel_left, List.take_left]
  have h4 : (P ++ run ++ y :: rest).take P.length = P := by
    rw [List.append_assoc, List.take_left]
  have h5 : (P ++ run ++ y :: rest).drop (P.length + run.length) = y :: rest := by
    rw [← List.length_append, List.drop_left]
  simp only [sortBody, h1, h2, h3, h4, h5]

/-- From a state of the loop of `sort` in which `addrs = P ++ run ++ rest`,
`i = len(P)` and `j = len(P) + len(run)`, the remaining passes and the final
shuffle leave `P` followed by the shuffled runs of `run ++ rest`. -/
theorem sortLoop_eq (rest : List SRV) : ∀ (P run : List SRV) (d : List Nat), run ≠ [] →
    sortLast ((List.range' (P.length + run.length) rest.length).foldl sortBody
        (P ++ run ++ rest, P.length, d))
      = (P ++ (shuffleRuns run rest d).1, (shuffleRuns run rest d).2) := by
  induction rest with
  | nil =>
    intro P run d _
    simp [shuffleRuns, sortLast]
  | cons y rest ih =>
    intro P run d hrun
    rw [List.length_cons, List.range'_succ, List.foldl_cons, sortBody_at P run rest y d hrun]
    by_cases hp : (run.getD 0 default).Priority ≠ y.Priority
    · have hl : (P ++ (byPriorityWeight.shuffleByWeight run d).1).length + [y].length
          = P.length + run.length + 1 := by
        simp [shuffleByWeight_length]
      have := ih (P ++ (byPriorityWeight.shuffleByWeight run d).1) [y]
        (byPriorityWeight.shuffleByWeight run d).2 (by simp)
      rw [hl] at this
      have hP : (P ++ (byPriorityWeight.shuffleByWeight run d).1).length
          = P.length + run.length := by
        simp [shuffleByWeight_length]
      rw [hP] at this
      simp only [List.append_assoc, List.singleton_append] at this
      simp only [if_pos hp, shuffleRuns, List.append_assoc]
      exact this
    · have := ih P (run ++ [y]) d (by simp)
      have hl : P.length + (run ++ [y]).length = P.length + run.length + 1 := by
        simp; omega
      rw [hl] at this
      simp only [List.append_assoc, List.singleton_append] at this
      simp only [if_neg hp, shuffleRuns, List.append_assoc]
      exact this

/-- The method `sort` is: sort, then shuffle the runs of equal priority. -/
theorem sort_eq_shuffleRuns (sortFn : List SRV → List SRV) (addrs : List SRV) (d : List Nat) :
    byPriorityWeight.sort sortFn addrs d =
      match sortFn addrs with
      | [] => ([], d)
      | x :: rest => shuffleRuns [x] rest d := by
  unfold byPriorityWeight.sort
  cases hs : sortFn addrs with
  | nil =>
    simp [sortLast, byPriorityWeight.shuffleByWeight, shuffleLoop, shuffleInit]
  | cons x rest =>
    have := sortLoop_eq rest [] [x] d (by simp)
    simpa using this

/-! ## Properties of the shuffled runs -/

theorem shuffleRuns_perm (rest : List SRV) : ∀ (run : List SRV) (d : List Nat),
    (shuffleRuns run rest d).1.Perm (run ++ rest) := by
  induction rest with
  | nil =>
    intro run d
    simpa [shuffleRuns] using shuffleByWeight_perm run d
  | cons y rest ih =>
    intro run d
    unfold shuffleRuns
    split
    · exact (shuffleByWeight_perm run d).append (ih [y] _)
    · simpa using ih (run ++ [y]) d

theorem map_priority_of_perm {l l' : List SRV} {p : Nat} (h : l'.Perm l)
    (hu : ∀ a ∈ l, a.Priority = p) :
    l'.map (fun a => a.Priority) = l.map (fun a => a.Priority) := by
  have h1 : l.map (fun a => a.Priority) = List.replicate l.length p := by
    rw [List.eq_replicate_iff]
    simpa using hu
  have h2 : l'.map (fun a => a.Priority) = List.replicate l.length p := by
    rw [List.eq_replicate_iff]
    refine ⟨by simpa using h.length_eq, ?_⟩
    simpa using fun a ha => hu a (h.subset ha)
  rw [h1, h2]

theorem uniform_snoc {run : List SRV} {y : SRV} (hrun : run ≠ [])
    (hu : ∀ a ∈ run, a.Priority = (run.getD 0 default).Priority)
    (hy : ¬ (run.getD 0 default).Priority ≠ y.Priority) :
    ∀ a ∈ run ++ [y], a.Priority = ((run ++ [y]).getD 0 default).Priority := by
  have hlen : 0 < run.length := List.length_pos.mpr hrun
  rw [List.getD_append _ _ _ _ hlen]
  intro a ha
  rcases List.mem_append.mp ha with ha | ha
  · exact hu a ha
  · rw [List.mem_singleton.mp ha]
    exact (not_not.mp hy).symm

/-- Shuffling the runs leaves the priority at every position as it was. -/
theorem shuffleRuns_priorities (rest : List SRV) : ∀ (run : List SRV) (d : List Nat),
    run ≠ [] → (∀ a ∈ run, a.Priority = (run.getD 0 default).Priority) →
    (shuffleRuns run rest d).1.map (fun a => a.Priority)
      = (run ++ rest).map (fun a => a.Priority) := by
  induction rest with
  | nil =>
    intro run d _ hu
    simpa [shuffleRuns] using map_priority_of_perm (shuffleByWeight_perm run d) hu
  | cons y rest ih =>
    intro run d hrun hu
    unfold shuffleRuns
    split
    · have h1 := map_priority_of_perm (shuffleByWeight_perm run d) hu
      have h2 := ih [y] (byPriorityWeight.shuffleByWeight run d).2 (by simp) (by simp)
      simp only [List.map_append, h1, h2, List.singleton_append]
    · rename_i hy
      have := ih (run ++ [y]) d (by simp) (uniform_snoc hrun hu hy)
      simpa using this

theorem shuffleByWeight_zero_last_prio (run : List SRV) (d : List Nat) :
    (byPriorityWeight.shuffleByWeight run d).1.Pairwise
      (fun a b => a.Priority = b.Priority → a.Weight = 0 → b.Weight = 0) := by
  refine List.Pairwise.imp ?_ (shuffleByWeight_zero_last run d)
  intro a b h _
  exact h

/-- In the shuffled runs of a list sorted by priority, no record of weight 0
stands before a record of positive weight and the same priority. -/
theorem shuffleRuns_zero_last (rest : List SRV) : ∀ (run : List SRV) (d : List Nat),
    run ≠ [] → (∀ a ∈ run, a.Priority = (run.getD 0 default).Priority) →
    (run ++ rest).Pairwise (fun a b => a.Priority ≤ b.Priority) →
    (shuffleRuns run rest d).1.Pairwise
      (fun a b => a.Priority = b.Priority → a.Weight = 0 → b.Weight = 0) := by
  induction rest with
  | nil =>
    intro run d _ _ _
    simp only [shuffleRuns]
    exact shuffleByWeight_zero_last_prio run d
  | cons y rest ih =>
    intro run d hrun hu hs
    unfold shuffleRuns
    split
    · rename_i hy
      rw [List.pairwise_append] at hs ⊢
      obtain ⟨-, hs2, hs3⟩ := hs
      refine ⟨shuffleByWeight_zero_last_prio run d,
        ih [y] _ (by simp) (by simp) (by simpa using hs2), ?_⟩
      intro a ha b hb hab
      have ha' := (shuffleByWeight_perm run d).subset ha
      have hb' : b ∈ y :: rest := by
        simpa using (shuffleRuns_perm rest [y] _).subset hb
      have hlen : 0 < run.length := List.length_pos.mpr hrun
      have hhead : run.getD 0 default ∈ run := by
        rw [List.getD_eq_getElem _ _ hlen]; exact List.getElem_mem _
      have h1 := hs3 _ hhead y (by simp)
      have h2 : y.Priority ≤ b.Priority := by
        rcases List.mem_cons.mp hb' with rfl | hb''
        · exact le_refl _
        · exact List.rel_of_pairwise_cons hs2 hb''
      have h3 := hu a ha'
      omega
    · rename_i hy
      exact ih (run ++ [y]) d (by simp) (uniform_snoc hrun hu hy) (by simpa using hs)

/-! ## The contract of `sort.Sort` -/

theorem lessSRV_false_imp {a b : SRV} (h : lessSRV b a = false) : a.Priority ≤ b.Priority := by
  simp only [lessSRV, Bool.or_eq_false_iff, decide_eq_false_iff_not] at h
  omega

theorem SortContract.priorities {sortFn : List SRV → List SRV} (h : SortContract sortFn)
    (l : List SRV) : (sortFn l).Pairwise (fun a b => a.Priority ≤ b.Priority) :=
  (h l).2.imp lessSRV_false_imp

theorem lessSRV_total (a b : SRV) : lessSRV b a = false ∨ lessSRV a b = false := by
  simp only [lessSRV, Bool.or_eq_false_iff, Bool.and_eq_false_imp, decide_eq_false_iff_not,
    decide_eq_true_eq]
  omega

theorem lessSRV_trans (a b c : SRV) (h1 : lessSRV b a = false) (h2 : lessSRV c b = false) :
    lessSRV c a = false := by
  simp only [lessSRV, Bool.or_eq_false_iff, Bool.and_eq_false_imp, decide_eq_false_iff_not,
    decide_eq_true_eq] at *
  omega

/-- Insertion sort meets the contract of `sort.Sort`. -/
theorem insertionSort_contract : SortContract insertionSort := by
  intro l
  haveI : IsTotal SRV (fun a b => lessSRV b a = false) := ⟨lessSRV_total⟩
  haveI : IsTrans SRV (fun a b => lessSRV b a = false) := ⟨lessSRV_trans⟩
  exact ⟨List.perm_insertionSort _ l, List.sorted_insertionSort _ l⟩

/-! ## Properties of `sort` -/

theorem sort_perm_sorted (sortFn : List SRV → List SRV) (addrs : List SRV) (d : List Nat) :
    (byPriorityWeight.sort sortFn addrs d).1.Perm (sortFn addrs) := by
  rw [sort_eq_shuffleRuns]
  cases sortFn addrs with
  | nil => simp
  | cons x rest => simpa using shuffleRuns_perm rest [x] d

theorem sort_priorities (sortFn : List SRV → List SRV) (addrs : List SRV) (d : List Nat) :
    (byPriorityWeight.sort sortFn addrs d).1.map (fun a => a.Priority)
      = (sortFn addrs).map (fun a => a.Priority) := by
  rw [sort_eq_shuffleRuns]
  cases sortFn addrs with
  | nil => simp
  | cons x rest => simpa using shuffleRuns_priorities rest [x] d (by simp) (by simp)

theorem sort_pairwise_priority {sortFn : List SRV → List SRV} (h : SortContract sortFn)
    (addrs : List SRV) (d : List Nat) :
    (byPriorityWeight.sort sortFn addrs d).1.Pairwise (fun a b => a.Priority ≤ b.Priority) := by
  have h1 := h.priorities addrs
  have h2 := sort_priorities sortFn addrs d
  have h3 : ((sortFn addrs).map (fun a => a.Priority)).Pairwise (· ≤ ·) :=
    List.pairwise_map.mpr h1
  rw [← h2] at h3
  exact List.pairwise_map.mp h3

theorem sort_zero_last {sortFn : List SRV → List SRV} (h : SortContract sortFn)
    (addrs : List SRV) (d : List Nat) :
    (byPriorityWeight.sort sortFn addrs d).1.Pairwise
      (fun a b => a.Priority = b.Priority → a.Weight = 0 → b.Weight = 0) := by
  have h1 := h.priorities addrs
  rw [sort_eq_shuffleRuns]
  cases hs : sortFn addrs with
  | nil => simp
  | cons x rest =>
    rw [hs] at h1
    exact shuffleRuns_zero_last rest [x] d (by simp) (by simp) (by simpa using h1)

/-! ## Counting the draws that select a position -/

theorem countP_range_interval (a b W : Nat) :
    (List.range W).countP (fun n => decide (a ≤ n ∧ n < b)) = min b W - min a W := by
  induction W with
  | zero => simp
  | succ W ih =>
    rw [List.range_succ, List.countP_append, ih]
    by_cases h : a ≤ W ∧ W < b
    · simp [List.countP_cons, h]; omega
    · simp [List.countP_cons, h]; omega

theorem totalWeight_append (l l' : List SRV) :
    totalWeight (l ++ l') = totalWeight l + totalWeight l' := by
  simp [totalWeight]

theorem totalWeight_take_le (l : List SRV) (k : Nat) :
    totalWeight (l.take k) ≤ totalWeight l := by
  have h := totalWeight_append (l.take k) (l.drop k)
  rw [List.take_append_drop] at h
  have := totalWeight_nonneg (l.drop k)
  omega

/-- Of the draws `0, ..., W - 1`, where `W` is the total weight, exactly
`weight(addrs[p])` make the selection loop stop at position `p`. -/
theorem pickLoop_count (l : List SRV) (p : Nat) (hp : p < l.length) :
    (List.range (totalWeight l).toNat).countP
        (fun (n : Nat) => pickLoop (n : Int) l 0 0 == some p) = (l.getD p default).Weight := by
  have h0 := totalWeight_nonneg (l.take p)
  have h1 := totalWeight_take_succ l p hp
  have h2 := totalWeight_take_le l (p + 1)
  have h3 := totalWeight_nonneg l
  have hcongr : (List.range (totalWeight l).toNat).countP
        (fun (n : Nat) => pickLoop (n : Int) l 0 0 == some p)
      = (List.range (totalWeight l).toNat).countP
        (fun (n : Nat) => decide ((totalWeight (l.take p)).toNat ≤ n ∧
          n < (totalWeight (l.take p)).toNat + (l.getD p default).Weight)) := by
    apply List.countP_congr
    intro n _
    have hiff := pickLoop_iff (n := (n : Int)) (l := l) (s := 0) (b := 0) (k := p)
      (by omega) hp
    simp only [Nat.zero_add, Int.zero_add] at hiff
    simp only [beq_iff_eq, hiff, decide_eq_true_eq]
    constructor <;> intro h <;> omega
  rw [hcongr, countP_range_interval]
  omega

/-- With total weight 0 the loop of `shuffleByWeight` is not entered. -/
theorem shuffleByWeight_of_zero (addrs : List SRV) (draws : List Nat)
    (h : sumWeights addrs = 0) :
    byPriorityWeight.shuffleByWeight addrs draws = (addrs, draws) := by
  have hc : shuffleCond (shuffleInit addrs draws) = false := by
    simp [shuffleCond, shuffleInit, h]
  have hl : ∀ k, shuffleLoop k (shuffleInit addrs draws) = shuffleInit addrs draws := by
    intro k
    cases k <;> simp [shuffleLoop, hc]
  unfold byPriorityWeight.shuffleByWeight
  rw [hl]
  simp [shuffleInit]

/-! ## Parsing a query string -/

theorem Split_ne_nil (s : Str) (sep : Char) : Split s sep ≠ [] := by
  cases s with
  | nil => simp [Split]
  | cons c cs =>
    unfold Split
    split
    · simp
    · split <;> simp

theorem Split_length_pos (s : Str) (sep : Char) : 0 < (Split s sep).length :=
  List.length_pos.mpr (Split_ne_nil s sep)

/-- A segment without separator, followed by a separator, is the first
segment of the split. -/
theorem Split_append_sep (x rest : Str) (sep : Char) (hx : sep ∉ x) :
    Split (x ++ sep :: rest) sep = x :: Split rest sep := by
  induction x with
  | nil => simp [Split]
  | cons c x ih =>
    have hc : c ≠ sep := fun h => hx (by simp [h])
    have hx' : sep ∉ x := fun h => hx (by simp [h])
    rw [List.cons_append, Split, if_neg hc, ih hx']

theorem HasPrefix_append (p s : Str) : HasPrefix (p ++ s) p = true := by
  simp [HasPrefix]

theorem TrimPrefix_append (p s : Str) : TrimPrefix (p ++ s) p = s := by
  simp [TrimPrefix, HasPrefix_append]

/-- The parsing part accepts `_x._y.z` and yields `(x, y, z)`. -/
theorem parseSRVName_wellformed (x y z : Str) (hx : '.' ∉ x) (hy : '.' ∉ y) :
    parseSRVName ("_".toList ++ x ++ "._".toList ++ y ++ ".".toList ++ z) = .ok (x, y, z) := by
  have e1 : "_".toList = ['_'] := rfl
  have e2 : "._".toList = ['.', '_'] := rfl
  have e3 : ".".toList = ['.'] := rfl
  have hraw : "_".toList ++ x ++ "._".toList ++ y ++ ".".toList ++ z
      = ('_' :: x) ++ '.' :: (('_' :: y) ++ '.' :: z) := by
    simp [e1, e2, e3]
  have hx' : '.' ∉ '_' :: x := by
    simp only [List.mem_cons, not_or]; exact ⟨by decide, hx⟩
  have hy' : '.' ∉ '_' :: y := by
    simp only [List.mem_cons, not_or]; exact ⟨by decide, hy⟩
  have hsplit : Split (('_' :: x) ++ '.' :: (('_' :: y) ++ '.' :: z)) '.'
      = ('_' :: x) :: ('_' :: y) :: Split z '.' := by
    rw [Split_append_sep _ _ _ hx', Split_append_sep _ _ _ hy']
  have hlen := Split_length_pos z '.'
  have hpre : HasPrefix (('_' :: x) ++ '.' :: (('_' :: y) ++ '.' :: z)) ['_'] = true := by
    simp [HasPrefix]
  have ht1 : TrimPrefix ('_' :: x) ['_'] = x := TrimPrefix_append ['_'] x
  have ht2 : TrimPrefix ('_' :: y) ['_'] = y := TrimPrefix_append ['_'] y
  have ht3 : TrimPrefix (('_' :: x) ++ '.' :: (('_' :: y) ++ '.' :: z))
      (['_'] ++ x ++ ['.', '_'] ++ y ++ ['.']) = z := by
    have : ('_' :: x) ++ '.' :: (('_' :: y) ++ '.' :: z)
        = (['_'] ++ x ++ ['.', '_'] ++ y ++ ['.']) ++ z := by simp
    rw [this, TrimPrefix_append]
  rw [hraw]
  unfold parseSRVName
  simp only [e1, e2, e3, hpre, hsplit, List.length_cons, List.getD_cons_zero,
    List.getD_cons_succ, ht1, ht2, ht3]
  simp
  omega

/-- The parsing part rejects a string without leading `_` or with fewer than
three segments. -/
theorem parseSRVName_malformed (raw : Str)
    (h : HasPrefix raw "_".toList = false ∨ (Split raw '.').length < 3) :
    ∃ e, parseSRVName raw = .error e := by
  have e1 : "_".toList = ['_'] := rfl
  rw [e1] at h
  unfold parseSRVName
  rw [e1]
  by_cases hp : HasPrefix raw ['_'] = true
  · rcases h with h | h
    · rw [hp] at h; cases h
    · simp [hp, h]
  · simp [hp]

theorem resolveSRVRecords_of_error {net : Net} {raw : Str} {e : Str}
    (h : parseSRVName raw = .error e) : resolveSRVRecords net raw = ([], .error e) := by
  simp [resolveSRVRecords, h]

theorem resolveSRVRecords_of_ok {net : Net} {raw port proto name : Str}
    (h : parseSRVName raw = .ok (port, proto, name)) :
    resolveSRVRecords net raw
      = ([Event.lookupSRV port proto name], net.LookupSRV port proto name) := by
  simp [resolveSRVRecords, h]

theorem resolveSRVRecords_lookups (net : Net) (raw : Str) :
    ∀ ev ∈ (resolveSRVRecords net raw).1, ev.isLookup = true := by
  unfold resolveSRVRecords
  split
  · simp
  · simp [Event.isLookup]

/-! ## The resolution loop of `FindNodes` -/

/-- The resolution loop stops at the first query string whose resolution
fails: the trace holds the lookups of the strings before it and its own, and
the loop ends with that error. -/
theorem resolveLoop_first_error (net : Net) (pre : List Str) (bad : Str) (post : List Str)
    (err : Str) (hpre : ∀ q ∈ pre, ∃ r, (resolveSRVRecords net q).2 = .ok r)
    (hbad : (resolveSRVRecords net bad).2 = .error err) :
    ∀ (srvs : List SRV) (tr : List Event),
      resolveLoop net (pre ++ bad :: post) srvs tr =
        (tr ++ (pre.map (fun q => (resolveSRVRecords net q).1)).flatten
            ++ (resolveSRVRecords net bad).1, .error err) := by
  induction pre with
  | nil =>
    intro srvs tr
    simp only [List.nil_append, List.map_nil, List.flatten_nil, List.append_nil, resolveLoop]
    split
    · rename_i evs e heq
      rw [heq] at hbad
      simp only [Except.error.injEq] at hbad
      simp [heq, hbad]
    · rename_i evs r heq
      rw [heq] at hbad
      cases hbad
  | cons q pre ih =>
    intro srvs tr
    obtain ⟨r, hr⟩ := hpre q (by simp)
    have ih' := ih (fun q' hq' => hpre q' (by simp [hq']))
    rw [List.cons_append, resolveLoop]
    split
    · rename_i evs e heq
      rw [heq] at hr
      cases hr
    · rename_i evs r' heq
      rw [ih']
      simp [heq]

/-! ## The ordering: `byPriorityWeight.sort` -/

/-- C1: for every list of candidates, every sequence of draws and every
`sort.Sort` that keeps its contract, the list `sort` produces is non-decreasing
in priority: for all positions `i < j`, `out[i].Priority <= out[j].Priority`. -/
theorem sort_priority_nondecreasing (sortFn : List SRV → List SRV)
    (hsort : SortContract sortFn) (addrs : List SRV) (draws : List Nat) (i j : Nat)
    (hij : i < j) (hj : j < (byPriorityWeight.sort sortFn addrs draws).1.length) :
    ((byPriorityWeight.sort sortFn addrs draws).1.get ⟨i, Nat.lt_trans hij hj⟩).Priority
      ≤ ((byPriorityWeight.sort sortFn addrs draws).1.get ⟨j, hj⟩).Priority :=
  List.pairwise_iff_get.mp (sort_pairwise_priority hsort addrs draws)
    ⟨i, Nat.lt_trans hij hj⟩ ⟨j, hj⟩ hij

/-- Witness of C1: sorting `h3, h1, h2` puts a priority-0 record at position 0
and the priority-1 record at position 2. -/
theorem sort_priority_nondecreasing_witness :
    ((byPriorityWeight.sort insertionSort [exH3, exH1, exH2] [7]).1.get ⟨0, by decide⟩).Priority
      ≤ ((byPriorityWeight.sort insertionSort [exH3, exH1, exH2] [7]).1.get
          ⟨2, by decide⟩).Priority :=
  sort_priority_nondecreasing insertionSort insertionSort_contract [exH3, exH1, exH2] [7] 0 2
    (by decide) (by decide)

/-- C2: for every list of candidates and every sequence of draws, the output
of `sort` is a permutation of its input, every candidate occurs as often in
the output as in the input, every position keeps the priority it had after
`sort.Sort`, the candidates of each priority are a permutation of the
candidates of that priority before the shuffle, and `shuffleByWeight` itself
permutes the run it is given. -/
theorem sort_permutation (sortFn : List SRV → List SRV) (hsort : SortContract sortFn)
    (addrs : List SRV) (draws : List Nat) :
    (byPriorityWeight.sort sortFn addrs draws).1.Perm addrs ∧
    (∀ c, (byPriorityWeight.sort sortFn addrs draws).1.count c = addrs.count c) ∧
    (byPriorityWeight.sort sortFn addrs draws).1.map (fun a => a.Priority)
      = (sortFn addrs).map (fun a => a.Priority) ∧
    (∀ p, ((byPriorityWeight.sort sortFn addrs draws).1.filter (fun a => a.Priority == p)).Perm
      ((sortFn addrs).filter (fun a => a.Priority == p))) ∧
    (∀ run d, (byPriorityWeight.shuffleByWeight run d).1.Perm run) := by
  have h1 := sort_perm_sorted sortFn addrs draws
  have h2 := h1.trans (hsort addrs).1
  exact ⟨h2, fun c => h2.count_eq c, sort_priorities sortFn addrs draws,
    fun p => h1.filter _, shuffleByWeight_perm⟩

/-- Witness of C2: `h3, h1, h2, h1` sorted with insertion sort. -/
theorem sort_permutation_witness :
    (byPriorityWeight.sort insertionSort [exH3, exH1, exH2, exH1] [7, 3]).1.Perm
      [exH3, exH1, exH2, exH1] :=
  (sort_permutation insertionSort insertionSort_contract [exH3, exH1, exH2, exH1] [7, 3]).1

/-- C10: in the output of `sort` no weight-0 candidate precedes a
positive-weight candidate of the same priority; every candidate a selection
step has placed has positive weight; and `shuffleByWeight` ends only when the
remaining weight is 0 or at most one candidate remains. -/
theorem sort_zero_weight_last_in_tier (sortFn : List SRV → List SRV)
    (hsort : SortContract sortFn) (addrs : List SRV) (draws : List Nat) :
    (∀ (i j : Nat) (hij : i < j)
        (hj : j < (byPriorityWeight.sort sortFn addrs draws).1.length),
        ((byPriorityWeight.sort sortFn addrs draws).1.get ⟨i, Nat.lt_trans hij hj⟩).Priority
          = ((byPriorityWeight.sort sortFn addrs draws).1.get ⟨j, hj⟩).Priority →
        ((byPriorityWeight.sort sortFn addrs draws).1.get ⟨i, Nat.lt_trans hij hj⟩).Weight = 0 →
        ((byPriorityWeight.sort sortFn addrs draws).1.get ⟨j, hj⟩).Weight = 0) ∧
    (∀ (run : List SRV) (d : List Nat) (k : Nat),
        ∀ a ∈ (shuffleLoop k (shuffleInit run d)).done, 0 < a.Weight) ∧
    (∀ (run : List SRV) (d : List Nat),
        shuffleCond (shuffleLoop run.length (shuffleInit run d)) = false ∧
        ((shuffleLoop run.length (shuffleInit run d)).sum
            = totalWeight (shuffleLoop run.length (shuffleInit run d)).addrs) ∧
        (totalWeight (shuffleLoop run.length (shuffleInit run d)).addrs = 0 ∨
          (shuffleLoop run.length (shuffleInit run d)).addrs.length ≤ 1)) := by
  refine ⟨?_, ?_, ?_⟩
  · intro i j hij hj
    exact List.pairwise_iff_get.mp (sort_zero_last hsort addrs draws)
      ⟨i, Nat.lt_trans hij hj⟩ ⟨j, hj⟩ hij
  · intro run d k
    exact (shuffleLoop_inv k (shuffleInit_inv run d)).2
  · intro run d
    have hex := shuffleByWeight_exits run d
    have hinv := (shuffleLoop_inv run.length (shuffleInit_inv run d)).1
    refine ⟨hex, hinv, ?_⟩
    have hc : ¬ (0 < (shuffleLoop run.length (shuffleInit run d)).sum ∧
        1 < (shuffleLoop run.length (shuffleInit run d)).addrs.length) := by
      rw [← shuffleCond_iff]; simp [hex]
    have := totalWeight_nonneg (shuffleLoop run.length (shuffleInit run d)).addrs
    omega

/-- Witness of C10: from `z1 (w=0), h1 (w=10), z2 (w=0)`, all of priority 0,
`sort` gives `h1, z1, z2`; position 1 has weight 0, and so has position 2. -/
theorem sort_zero_weight_last_in_tier_witness :
    ((byPriorityWeight.sort insertionSort [exZ1, exH1, exZ2] [3]).1.get ⟨2, by decide⟩).Weight
      = 0 :=
  (sort_zero_weight_last_in_tier insertionSort insertionSort_contract [exZ1, exH1, exZ2] [3]).1
    1 2 (by decide) (by decide) (by decide) (by decide)

/-! ## The weighted shuffle: `shuffleByWeight` -/

/-- The state after `k + 1` passes is one more pass from the state after `k`,
when the loop has not ended. -/
theorem shuffleLoop_succ (k : Nat) : ∀ st : ShuffleState,
    shuffleLoop (k + 1) st
      = if shuffleCond (shuffleLoop k st) then shuffleBody (shuffleLoop k st)
        else shuffleLoop k st := by
  induction k with
  | zero => intro st; simp [shuffleLoop]
  | succ k ih =>
    intro st
    by_cases hc : shuffleCond st = true
    · have h1 : shuffleLoop (k + 1 + 1) st = shuffleLoop (k + 1) (shuffleBody st) := by
        rw [shuffleLoop, if_pos hc]
      have h2 : shuffleLoop (k + 1) st = shuffleLoop k (shuffleBody st) := by
        rw [shuffleLoop, if_pos hc]
      rw [h1, h2, ih]
    · have h1 : shuffleLoop (k + 1 + 1) st = st := by
        rw [shuffleLoop, if_neg hc]
      have h2 : shuffleLoop (k + 1) st = st := by
        rw [shuffleLoop, if_neg hc]
      rw [h1, h2, if_neg hc]

/-- While the loop runs, each pass reads one draw. -/
theorem shuffleLoop_draws (k : Nat) : ∀ st : ShuffleState,
    shuffleCond (shuffleLoop k st) = true → (shuffleLoop k st).draws = st.draws.drop k := by
  induction k with
  | zero => intro st _; simp [shuffleLoop]
  | succ k ih =>
    intro st hc
    by_cases hst : shuffleCond st = true
    · rw [shuffleLoop, if_pos hst] at hc ⊢
      rw [ih _ hc]
      simp [shuffleBody]
    · rw [shuffleLoop, if_neg hst] at hc
      exact absurd hc hst

theorem headD_eq_getD (l : List Nat) : l.headD 0 = l.getD 0 0 := by
  cases l <;> rfl

theorem tail_getD (l : List Nat) (i : Nat) : l.tail.getD i 0 = l.getD (i + 1) 0 := by
  cases l <;> simp

/-- The state at the head of pass `k` depends on the first `k` draws only. -/
theorem shuffleLoop_draws_agree (k : Nat) : ∀ st st' : ShuffleState,
    st.done = st'.done → st.addrs = st'.addrs → st.sum = st'.sum →
    (∀ i, i < k → st.draws.getD i 0 = st'.draws.getD i 0) →
    (shuffleLoop k st).done = (shuffleLoop k st').done ∧
    (shuffleLoop k st).addrs = (shuffleLoop k st').addrs ∧
    (shuffleLoop k st).sum = (shuffleLoop k st').sum := by
  induction k with
  | zero => intro st st' h1 h2 h3 _; exact ⟨h1, h2, h3⟩
  | succ k ih =>
    intro st st' h1 h2 h3 h4
    have hcond : shuffleCond st = shuffleCond st' := by simp [shuffleCond, h2, h3]
    have hhead : st.draws.headD 0 = st'.draws.headD 0 := by
      rw [headD_eq_getD, headD_eq_getD]
      exact h4 0 (by omega)
    by_cases hc : shuffleCond st = true
    · have hc' : shuffleCond st' = true := by rw [← hcond]; exact hc
      rw [shuffleLoop, if_pos hc, shuffleLoop, if_pos hc']
      apply ih
      · simp only [shuffleBody, h1, h2, h3, hhead]
      · simp only [shuffleBody, h2, h3, hhead]
      · simp only [shuffleBody, h2, h3, hhead]
      · intro i hi
        simp only [shuffleBody, tail_getD]
        exact h4 (i + 1) (by omega)
    · have hc' : ¬ shuffleCond st' = true := by rw [← hcond]; exact hc
      rw [shuffleLoop, if_neg hc, shuffleLoop, if_neg hc']
      exact ⟨h1, h2, h3⟩

theorem take_one_eq_getD (l : List SRV) (h : 0 < l.length) :
    l.take 1 = [l.getD 0 default] := by
  cases l with
  | nil => simp at h
  | cons a t => simp

/-- C8: at the head of every pass of the outer loop of `shuffleByWeight` at
which the remaining candidates have total weight `W > 0`, the variable `sum`
equals `W`; `rand.Intn(sum)` returns a draw `n` of `[0, W)` and each of them
can be returned; position `p` of the remaining run is the one the selection
loop stops at for exactly `weight(addrs[p])` of the `W` draws; the candidate
it stops at is the one at the front afterwards; and the pass itself, when
`rand.Intn` reads the raw draw `n` (after the draws `pre` of the earlier
passes), starts from the same `done`, `addrs` and `sum` whatever `n` is, runs
the selection loop on the draw `Intn sum n`, moves the candidate found to the
end of `done`, takes its weight off `sum` and goes on with the rest. -/
theorem shuffle_selection_proportional (addrs : List SRV) (pre rest : List Nat) (p : Nat)
    (hW : 0 < totalWeight (shuffleAt addrs (pre ++ rest) pre.length).addrs)
    (hp : p < (shuffleAt addrs (pre ++ rest) pre.length).addrs.length) :
    (shuffleAt addrs (pre ++ rest) pre.length).sum
        = totalWeight (shuffleAt addrs (pre ++ rest) pre.length).addrs ∧
    (∀ raw : Nat,
        0 ≤ Intn (shuffleAt addrs (pre ++ rest) pre.length).sum raw ∧
        Intn (shuffleAt addrs (pre ++ rest) pre.length).sum raw
          < (shuffleAt addrs (pre ++ rest) pre.length).sum) ∧
    (∀ n : Nat, (n : Int) < (shuffleAt addrs (pre ++ rest) pre.length).sum →
        Intn (shuffleAt addrs (pre ++ rest) pre.length).sum n = (n : Int)) ∧
    (List.range (shuffleAt addrs (pre ++ rest) pre.length).sum.toNat).countP
        (fun (n : Nat) =>
          pickLoop (Intn (shuffleAt addrs (pre ++ rest) pre.length).sum n)
            (shuffleAt addrs (pre ++ rest) pre.length).addrs 0 0 == some p)
      = ((shuffleAt addrs (pre ++ rest) pre.length).addrs.get ⟨p, hp⟩).Weight ∧
    (∀ n : Int, pickLoop n (shuffleAt addrs (pre ++ rest) pre.length).addrs 0 0 = some p →
        (selectFront (shuffleAt addrs (pre ++ rest) pre.length).addrs n).head?
          = some ((shuffleAt addrs (pre ++ rest) pre.length).addrs.get ⟨p, hp⟩)) ∧
    (1 < (shuffleAt addrs (pre ++ rest) pre.length).addrs.length → ∀ n : Nat,
        ((shuffleAt addrs (pre ++ n :: rest) pre.length).done
            = (shuffleAt addrs (pre ++ rest) pre.length).done ∧
          (shuffleAt addrs (pre ++ n :: rest) pre.length).addrs
            = (shuffleAt addrs (pre ++ rest) pre.length).addrs ∧
          (shuffleAt addrs (pre ++ n :: rest) pre.length).sum
            = (shuffleAt addrs (pre ++ rest) pre.length).sum ∧
          (shuffleAt addrs (pre ++ n :: rest) pre.length).draws = n :: rest) ∧
        shuffleAt addrs (pre ++ n :: rest) (pre.length + 1)
          = { done := (shuffleAt addrs (pre ++ rest) pre.length).done ++
                (selectFront (shuffleAt addrs (pre ++ rest) pre.length).addrs
                  (Intn (shuffleAt addrs (pre ++ rest) pre.length).sum n)).take 1
              addrs := (selectFront (shuffleAt addrs (pre ++ rest) pre.length).addrs
                  (Intn (shuffleAt addrs (pre ++ rest) pre.length).sum n)).drop 1
              sum := (shuffleAt addrs (pre ++ rest) pre.length).sum -
                (((selectFront (shuffleAt addrs (pre ++ rest) pre.length).addrs
                  (Intn (shuffleAt addrs (pre ++ rest) pre.length).sum n)).getD 0
                    default).Weight : Int)
              draws := rest } ∧
        (∃ q, pickLoop (Intn (shuffleAt addrs (pre ++ rest) pre.length).sum n)
            (shuffleAt addrs (pre ++ rest) pre.length).addrs 0 0 = some q) ∧
        (pickLoop (Intn (shuffleAt addrs (pre ++ rest) pre.length).sum n)
            (shuffleAt addrs (pre ++ rest) pre.length).addrs 0 0 = some p →
          (shuffleAt addrs (pre ++ n :: rest) (pre.length + 1)).done
              = (shuffleAt addrs (pre ++ rest) pre.length).done ++
                [(shuffleAt addrs (pre ++ rest) pre.length).addrs.get ⟨p, hp⟩] ∧
          (shuffleAt addrs (pre ++ n :: rest) (pre.length + 1)).sum
              = (shuffleAt addrs (pre ++ rest) pre.length).sum -
                (((shuffleAt addrs (pre ++ rest) pre.length).addrs.get ⟨p, hp⟩).Weight : Int))) := by
  have hinv : (shuffleAt addrs (pre ++ rest) pre.length).sum
      = totalWeight (shuffleAt addrs (pre ++ rest) pre.length).addrs :=
    (shuffleLoop_inv pre.length (shuffleInit_inv addrs (pre ++ rest))).1
  have hagree : ∀ n : Nat,
      (shuffleAt addrs (pre ++ n :: rest) pre.length).done
          = (shuffleAt addrs (pre ++ rest) pre.length).done ∧
      (shuffleAt addrs (pre ++ n :: rest) pre.length).addrs
          = (shuffleAt addrs (pre ++ rest) pre.length).addrs ∧
      (shuffleAt addrs (pre ++ n :: rest) pre.length).sum
          = (shuffleAt addrs (pre ++ rest) pre.length).sum := by
    intro n
    apply shuffleLoop_draws_agree pre.length
    · rfl
    · rfl
    · rfl
    · intro i hi
      simp only [shuffleInit]
      rw [List.getD_append _ _ _ _ hi, List.getD_append _ _ _ _ hi]
  have hdraws : ∀ n : Nat,
      shuffleCond (shuffleAt addrs (pre ++ n :: rest) pre.length) = true →
      (shuffleAt addrs (pre ++ n :: rest) pre.length).draws = n :: rest := by
    intro n hc
    have := shuffleLoop_draws pre.length (shuffleInit addrs (pre ++ n :: rest)) hc
    simpa [shuffleAt, shuffleInit] using this
  have hsuccAt : ∀ n : Nat,
      shuffleCond (shuffleAt addrs (pre ++ n :: rest) pre.length) = true →
      shuffleAt addrs (pre ++ n :: rest) (pre.length + 1)
        = shuffleBody (shuffleAt addrs (pre ++ n :: rest) pre.length) := by
    intro n hc
    have := shuffleLoop_succ pre.length (shuffleInit addrs (pre ++ n :: rest))
    simp only [shuffleAt] at hc ⊢
    rw [this, if_pos hc]
  generalize shuffleAt addrs (pre ++ rest) pre.length = st at hW hp hinv hagree
  have hsum : 0 < st.sum := by rw [hinv]; exact hW
  have hget : st.addrs.getD p default = st.addrs.get ⟨p, hp⟩ := by
    rw [List.getD_eq_getElem _ _ hp]; rfl
  have hIntn : ∀ n : Nat, (n : Int) < st.sum → Intn st.sum n = (n : Int) := by
    intro n hn
    unfold Intn
    exact Int.emod_eq_of_lt (by omega) hn
  have hfront : ∀ n : Int, pickLoop n st.addrs 0 0 = some p →
      (selectFront st.addrs n).getD 0 default = st.addrs.get ⟨p, hp⟩ := by
    intro n hn
    rw [selectFront_head hn, hget]
  have hlenSel : ∀ n : Int, 0 < (selectFront st.addrs n).length := by
    intro n
    rw [(selectFront_perm st.addrs n).length_eq]; omega
  refine ⟨hinv, fun raw => Intn_range hsum raw, hIntn, ?_, ?_, ?_⟩
  · have hcount := pickLoop_count st.addrs p hp
    rw [← hinv, hget] at hcount
    rw [← hcount]
    apply List.countP_congr
    intro n hn
    have hlt : (n : Int) < st.sum := by
      have := List.mem_range.mp hn
      omega
    rw [hIntn n hlt]
  · intro n hn
    have h := hfront n hn
    rw [List.getD_eq_getElem _ _ (hlenSel n)] at h
    rw [List.head?_eq_getElem?, List.getElem?_eq_getElem (hlenSel n), h]
  · intro hlen n
    obtain ⟨hd, ha, hs⟩ := hagree n
    have hc : shuffleCond (shuffleAt addrs (pre ++ n :: rest) pre.length) = true := by
      rw [shuffleCond_iff, ha, hs]; exact ⟨hsum, hlen⟩
    have hdr := hdraws n hc
    have hbody : shuffleAt addrs (pre ++ n :: rest) (pre.length + 1)
        = { done := st.done ++ (selectFront st.addrs (Intn st.sum n)).take 1
            addrs := (selectFront st.addrs (Intn st.sum n)).drop 1
            sum := st.sum - (((selectFront st.addrs (Intn st.sum n)).getD 0 default).Weight : Int)
            draws := rest } := by
      rw [hsuccAt n hc]
      simp only [shuffleBody, hd, ha, hs, hdr, List.headD_cons, List.tail_cons]
    have hr := Intn_range hsum n
    refine ⟨⟨hd, ha, hs, hdr⟩, hbody, ?_, ?_⟩
    · exact pickLoop_isSome (by simpa using hr.1) (by simpa [← hinv] using hr.2)
    · intro hpick
      rw [hbody]
      simp only [take_one_eq_getD _ (hlenSel _), hfront _ hpick]
      exact ⟨trivial, trivial⟩

/-- Witness of C8: on entry to the loop for the run `(h2, w=5), (h1, w=10)`,
10 of the 15 draws stop at `h1` (position 1); the draw 7 is one of them, and
the pass with that draw places `h1` and leaves `sum = 5`. -/
theorem shuffle_selection_proportional_witness :
    (List.range 15).countP
        (fun (n : Nat) => pickLoop (Intn 15 n) [exH2, exH1] 0 0 == some 1) = 10 ∧
    (shuffleAt [exH2, exH1] ([] ++ 7 :: []) (([] : List Nat).length + 1)).done = [exH1] ∧
    (shuffleAt [exH2, exH1] ([] ++ 7 :: []) (([] : List Nat).length + 1)).sum = 5 :=
  ⟨(shuffle_selection_proportional [exH2, exH1] [] [] 1 (by decide) (by decide)).2.2.2.1,
    ((shuffle_selection_proportional [exH2, exH1] [] [] 1 (by decide) (by decide)).2.2.2.2.2
      (by decide) 7).2.2.2 (by decide)⟩

/-- C9, as the code has it: a run whose weights sum to 0 is left as it is by
`shuffleByWeight`, whatever the draws, and no draw is read. -/
theorem shuffle_zero_weight_unchanged (addrs : List SRV) (draws : List Nat)
    (h : sumWeights addrs = 0) :
    byPriorityWeight.shuffleByWeight addrs draws = (addrs, draws) :=
  shuffleByWeight_of_zero addrs draws h

/-- Witness of C9 as amended: the run `z1, z2` of weight 0. -/
theorem shuffle_zero_weight_unchanged_witness :
    byPriorityWeight.shuffleByWeight [exZ1, exZ2] [1, 0] = ([exZ1, exZ2], [1, 0]) :=
  shuffle_zero_weight_unchanged [exZ1, exZ2] [1, 0] (by decide)

/-- Counterexample to C9 as stated: the run `z1, z2` has equal priority, total
weight 0 and two distinct candidates, yet no sequence of draws makes
`shuffleByWeight` produce the permutation `z2, z1`. -/
theorem shuffle_zero_weight_not_shuffled :
    exZ1.Priority = exZ2.Priority ∧ sumWeights [exZ1, exZ2] = 0 ∧ exZ1 ≠ exZ2 ∧
    [exZ2, exZ1].Perm [exZ1, exZ2] ∧
    ¬ ∃ draws, (byPriorityWeight.shuffleByWeight [exZ1, exZ2] draws).1 = [exZ2, exZ1] := by
  refine ⟨by decide, by decide, by decide, List.Perm.swap _ _ _, ?_⟩
  rintro ⟨draws, h⟩
  rw [shuffleByWeight_of_zero _ _ (by decide)] at h
  change [exZ1, exZ2] = [exZ2, exZ1] at h
  exact absurd h (by decide)

/-! ## Parsing and resolution -/

/-- C7: for `x` and `y` without `.` and every `z`, the string `_x._y.z` is
accepted by the parsing part of `resolveSRVRecords`, which issues exactly one
lookup, with service `x`, proto `y` and name `z`, and returns its result; and
a string that does not start with `_` or has fewer than 3 segments is rejected
with an error and no lookup. -/
theorem resolveSRVRecords_parses (net : Net) (x y z : Str) (hx : '.' ∉ x) (hy : '.' ∉ y) :
    parseSRVName ("_".toList ++ x ++ "._".toList ++ y ++ ".".toList ++ z) = .ok (x, y, z) ∧
    resolveSRVRecords net ("_".toList ++ x ++ "._".toList ++ y ++ ".".toList ++ z)
      = ([Event.lookupSRV x y z], net.LookupSRV x y z) ∧
    (∀ raw : Str, HasPrefix raw "_".toList = false ∨ (Split raw '.').length < 3 →
      ∃ e, parseSRVName raw = .error e ∧ resolveSRVRecords net raw = ([], .error e)) := by
  refine ⟨parseSRVName_wellformed x y z hx hy,
    resolveSRVRecords_of_ok (parseSRVName_wellformed x y z hx hy), ?_⟩
  intro raw h
  obtain ⟨e, he⟩ := parseSRVName_malformed raw h
  exact ⟨e, he, resolveSRVRecords_of_error he⟩

/-- Witness of C7: `_grpc._tcp.svc.cluster.local` is looked up as
`(grpc, tcp, svc.cluster.local)`. -/
theorem resolveSRVRecords_parses_witness :
    parseSRVName ("_".toList ++ "grpc".toList ++ "._".toList ++ "tcp".toList ++ ".".toList
        ++ "svc.cluster.local".toList)
      = .ok ("grpc".toList, "tcp".toList, "svc.cluster.local".toList) :=
  (resolveSRVRecords_parses exNet "grpc".toList "tcp".toList "svc.cluster.local".toList
    (by decide) (by decide)).1

/-- C6: when every query string before `bad` is well-formed and resolves, and
`bad` is malformed or its lookup fails, `FindNodes` ends in `log.Fatalln` with
the error of `bad`: the trace holds the lookups of the strings before `bad`
and of `bad` itself and nothing else, so no later string is looked up, no
candidate is dialled and no result is returned. -/
theorem FindNodes_first_bad_query_fatal (net : Net) (sortFn : List SRV → List SRV)
    (draws : List Nat) (pre : List Str) (bad : Str) (post : List Str) (max : Int)
    (hpre : ∀ q ∈ pre, ∃ r, (resolveSRVRecords net q).2 = .ok r)
    (hbad : HasPrefix bad "_".toList = false ∨ (Split bad '.').length < 3 ∨
      ∃ port proto name e, parseSRVName bad = .ok (port, proto, name) ∧
        net.LookupSRV port proto name = .error e) :
    ∃ err, (resolveSRVRecords net bad).2 = .error err ∧
      FindNodes net sortFn draws (pre ++ bad :: post) max
        = ((pre.map (fun q => (resolveSRVRecords net q).1)).flatten
            ++ (resolveSRVRecords net bad).1, .fatal err) ∧
      (∀ ev ∈ (FindNodes net sortFn draws (pre ++ bad :: post) max).1, ev.isLookup = true) := by
  have herr : ∃ err, (resolveSRVRecords net bad).2 = .error err := by
    rcases hbad with h | h | ⟨port, proto, name, e, h1, h2⟩
    · obtain ⟨e, he⟩ := parseSRVName_malformed bad (Or.inl h)
      exact ⟨e, by rw [resolveSRVRecords_of_error he]⟩
    · obtain ⟨e, he⟩ := parseSRVName_malformed bad (Or.inr h)
      exact ⟨e, by rw [resolveSRVRecords_of_error he]⟩
    · exact ⟨e, by rw [resolveSRVRecords_of_ok h1, h2]⟩
  obtain ⟨err, herr⟩ := herr
  have hloop := resolveLoop_first_error net pre bad post err hpre herr [] []
  have hfind : FindNodes net sortFn draws (pre ++ bad :: post) max
      = ((pre.map (fun q => (resolveSRVRecords net q).1)).flatten
          ++ (resolveSRVRecords net bad).1, .fatal err) := by
    unfold FindNodes
    rw [hloop]
    simp
  refine ⟨err, herr, hfind, ?_⟩
  rw [hfind]
  intro ev hev
  simp only [List.mem_append, List.mem_flatten, List.mem_map] at hev
  rcases hev with ⟨l, ⟨q, _, rfl⟩, hl⟩ | hev
  · exact resolveSRVRecords_lookups net q ev hl
  · exact resolveSRVRecords_lookups net bad ev hev

/-- Witness of C6: the second of three query strings does not resolve. -/
theorem FindNodes_first_bad_query_fatal_witness :
    ∃ err, (resolveSRVRecords exNet exQueryDown).2 = .error err ∧
      FindNodes exNet insertionSort [7] ([exQuery] ++ exQueryDown :: [exQuery]) 2
        = (([exQuery].map (fun q => (resolveSRVRecords exNet q).1)).flatten
            ++ (resolveSRVRecords exNet exQueryDown).1, .fatal err) ∧
      (∀ ev ∈ (FindNodes exNet insertionSort [7] ([exQuery] ++ exQueryDown :: [exQuery]) 2).1,
        ev.isLookup = true) :=
  FindNodes_first_bad_query_fatal exNet insertionSort [7] [exQuery] exQueryDown [exQuery] 2
    (fun q hq => ⟨[exH1, exH2, exH3], by rw [List.mem_singleton.mp hq]; rfl⟩)
    (Or.inr (Or.inr ⟨"grpc".toList, "tcp".toList, "down.local".toList, "no such host".toList,
      rfl, rfl⟩))

/-! ## The probe loop of `FindNodes` -/

/-- C3, the code at the failing input: one candidate `h1` whose dial fails.
`FindNodes` logs the failure and then panics in `conn.Close()`; it returns
nothing. -/
theorem FindNodes_failed_dial_panics :
    FindNodes exNetOneDown insertionSort [] [exQuery] 1
      = ([Event.lookupSRV "grpc".toList "tcp".toList "svc.cluster.local".toList,
          Event.dial "tcp".toList "h1:26257".toList,
          Event.logPrintln "could not connect to server: ".toList
            "connection refused".toList],
        Outcome.panicked) := by
  decide

/-- C4, the code at the failing input: `max = 0` and one reachable candidate
`h1`.  `FindNodes` dials `h1` and returns `h1:26257`. -/
theorem FindNodes_max_zero_probes :
    FindNodes exNetOne insertionSort [] [exQuery] 0
      = ([Event.lookupSRV "grpc".toList "tcp".toList "svc.cluster.local".toList,
          Event.dial "tcp".toList "h1:26257".toList,
          Event.close "h1:26257".toList],
        Outcome.returned "h1:26257".toList) := by
  decide

/-- C5, the code at the failing input: `max = 1`, the first candidate refuses
the connection and the second accepts.  `FindNodes` panics at the first
candidate and never reaches the second. -/
theorem FindNodes_unreachable_first_panics :
    FindNodes exNetFirstDown insertionSort [] [exQuery] 1
      = ([Event.lookupSRV "grpc".toList "tcp".toList "svc.cluster.local".toList,
          Event.dial "tcp".toList "h3:26257".toList,
          Event.logPrintln "could not connect to server: ".toList
            "connection refused".toList],
        Outcome.panicked) := by
  decide

/-! ## What the probe loop does -/

/-- A candidate whose dial fails is logged, and then `conn.Close()` on the nil
connection panics: the loop ends there, whatever follows in the list. -/
theorem probeLoop_dial_error (net : Net) (max : Int) (s : SRV) (rest : List SRV)
    (reachable : List Str) (tr : List Event) (e : Str)
    (h : net.Dial "tcp".toList (endpointOf s) = .error e) :
    probeLoop net max (s :: rest) reachable tr
      = (tr ++ [Event.dial "tcp".toList (endpointOf s),
          Event.logPrintln "could not connect to server: ".toList e], Outcome.panicked) := by
  simp only [probeLoop, h, dialResults, Close, List.append_assoc, List.singleton_append]

/-- When every candidate accepts the connection and fewer than `max` endpoints
have been collected, the loop returns the endpoints collected so far followed
by those of the next candidates, up to `max` in all. -/
theorem probeLoop_all_reachable (net : Net) (max : Int) (cands : List SRV)
    (hall : ∀ s ∈ cands, ∃ c, net.Dial "tcp".toList (endpointOf s) = .ok c) :
    ∀ (reachable : List Str) (tr : List Event), (reachable.length : Int) < max →
      (probeLoop net max cands reachable tr).2
        = Outcome.returned (Join (reachable ++
            (cands.map endpointOf).take (max.toNat - reachable.length)) ",".toList) := by
  induction cands with
  | nil =>
    intro reachable tr _
    simp [probeLoop]
  | cons s rest ih =>
    intro reachable tr hlt
    obtain ⟨c, hc⟩ := hall s (by simp)
    have ih' := ih (fun s' hs' => hall s' (by simp [hs']))
    have hpos : max.toNat - reachable.length = (max.toNat - (reachable.length + 1)) + 1 := by
      omega
    simp only [probeLoop, hc, dialResults, Close, List.map_cons]
    rw [hpos, List.take_succ_cons]
    split
    · rename_i heq
      have : max.toNat - (reachable.length + 1) = 0 := by
        simp only [List.length_append, List.length_singleton] at heq
        omega
      simp [this]
    · rename_i hne
      have hlt' : ((reachable ++ [endpointOf s]).length : Int) < max := by
        simp only [List.length_append, List.length_singleton] at hne ⊢
        omega
      rw [ih' _ _ hlt']
      simp

end Discovery
